import Mathlib

/-!
Verification of the canonicalization edit pipeline of the
tailwindcss-canonical-classes monorepo.

The TypeScript sources are shallowly embedded: document text is a list of
characters, JavaScript string splices (slice-concatenation) become take and
drop on lists, the stable Array.prototype.sort becomes List.mergeSort, and
the JS Set of string keys used in dedupeEdits becomes a list of String keys
with the exact key format of the source.  Asynchronous I/O boundaries
(doValidate of the external language service, glob discovery, file reads)
enter as function parameters or as explicit input lists.
-/

namespace TwCanon

/-- A text edit, embedded from the TextEdit type of the core package:
startOffset and endOffset are offsets into the original document text,
replacement is spliced in, original records the replaced substring. -/
structure TextEdit where
  startOffset : Nat
  endOffset : Nat
  replacement : List Char
  original : List Char
deriving DecidableEq, Repr

/-- A diagnostic produced by the external analyzer (doValidate of the
Tailwind language service), already converted to document offsets the way
buildCanonicalEdits reads it: the half-open range, the ordered suggestion
list, and the result of the isSuggestCanonicalClasses kind check. -/
structure Diagnostic where
  rangeStart : Nat
  rangeEnd : Nat
  suggestions : List (List Char)
  suggestCanonical : Bool
deriving DecidableEq, Repr

/-! ### Format dispatcher (part_005: SUPPORTED_EXTENSIONS, inferLanguageId,
isSupportedExtension), with the Node path.extname semantics embedded. -/

/-- Embedded from SUPPORTED_EXTENSIONS in the core canonicalize module. -/
def SUPPORTED_EXTENSIONS : List String :=
  [".astro", ".css", ".html", ".htm", ".js", ".jsx", ".less", ".md", ".mdx",
   ".mjs", ".mts", ".pcss", ".postcss", ".sass", ".scss", ".styl", ".stylus",
   ".sss", ".svelte", ".ts", ".tsx", ".vue"]

/-- Node path.extname on the character list of a posix path: take the last
path component (ignoring trailing separators), return from its last dot to
the end; no extension when there is no dot, when the dot is the first
character of the component, or when the component is exactly "..". -/
def extnameData (p : List Char) : List Char :=
  let rev := p.reverse.dropWhile (fun c => c = '/')
  let baseRev := rev.takeWhile (fun c => c ≠ '/')
  if baseRev = ['.', '.'] then []
  else
    let afterDotRev := baseRev.takeWhile (fun c => c ≠ '.')
    if afterDotRev.length = baseRev.length then []
    else if baseRev.length - 1 - afterDotRev.length = 0 then []
    else '.' :: afterDotRev.reverse

/-- Embedding of path.extname (Node, posix). -/
def extname (p : String) : String :=
  (extnameData p.data).asString

/-- The toLowerCase applied to the extension, as the per-character
lowercasing of the string. -/
def lowerAscii (s : String) : String :=
  (s.data.map Char.toLower).asString

/-- Embedded from inferLanguageId: map the lowercased extension to a
language id of the Tailwind language service, null for anything else. -/
def inferLanguageId (filePath : String) : Option String :=
  match lowerAscii (extname filePath) with
  | ".css" | ".less" | ".pcss" | ".postcss" | ".scss" | ".sass"
  | ".styl" | ".stylus" | ".sss" => some "css"
  | ".html" | ".htm" | ".md" | ".mdx" => some "html"
  | ".js" | ".mjs" => some "javascript"
  | ".jsx" => some "javascriptreact"
  | ".ts" | ".mts" => some "typescript"
  | ".tsx" => some "typescriptreact"
  | ".vue" => some "vue"
  | ".svelte" => some "svelte"
  | ".astro" => some "astro"
  | _ => none

/-- Embedded from isSupportedExtension: membership of the lowercased
extension in SUPPORTED_EXTENSIONS. -/
def isSupportedExtension (filePath : String) : Bool :=
  SUPPORTED_EXTENSIONS.contains (lowerAscii (extname filePath))

/-! ### Edit applier (part_005: applyTextEdits). -/

/-- One splice of applyTextEdits:
output.slice(0, startOffset) + replacement + output.slice(endOffset).
JS slice clamps out-of-range indices exactly as take and drop do. -/
def spliceEdit (output : List Char) (e : TextEdit) : List Char :=
  output.take e.startOffset ++ e.replacement ++ output.drop e.endOffset

/-- The sort of applyTextEdits: a stable sort with comparator
(a, b) => b.startOffset - a.startOffset, i.e. descending startOffset. -/
def sortByStartDesc (edits : List TextEdit) : List TextEdit :=
  edits.mergeSort (fun a b => decide (b.startOffset ≤ a.startOffset))

/-- One iteration of the loop of applyTextEdits: the state is the current
output together with lastStart (none embeds Number.POSITIVE_INFINITY);
an edit with endOffset > lastStart is skipped, otherwise it is spliced
and lastStart becomes its startOffset. -/
def applyStep (acc : List Char × Option Nat) (e : TextEdit) :
    List Char × Option Nat :=
  match acc.2 with
  | some lastStart =>
    if lastStart < e.endOffset then acc
    else (spliceEdit acc.1 e, some e.startOffset)
  | none => (spliceEdit acc.1 e, some e.startOffset)

/-- Embedded from applyTextEdits: return the text unchanged on an empty
edit list, otherwise sort by descending startOffset and run the
skip-or-splice loop starting from lastStart = infinity. -/
def applyTextEdits (text : List Char) (edits : List TextEdit) : List Char :=
  if edits.length = 0 then text
  else ((sortByStartDesc edits).foldl applyStep (text, none)).1

/-! ### Deduplication (part_005: dedupeEdits). -/

/-- The Set key of dedupeEdits, exactly the source's
template string startOffset + ":" + endOffset. -/
def editKey (e : TextEdit) : String :=
  Nat.repr e.startOffset ++ ":" ++ Nat.repr e.endOffset

/-- The loop of dedupeEdits: seen is the Set of keys already pushed; an
edit whose key was seen is dropped, otherwise it is kept and its key
recorded. -/
def dedupeLoop (seen : List String) : List TextEdit → List TextEdit
  | [] => []
  | e :: rest =>
    if seen.contains (editKey e) then dedupeLoop seen rest
    else e :: dedupeLoop (editKey e :: seen) rest

/-- Embedded from dedupeEdits. -/
def dedupeEdits (edits : List TextEdit) : List TextEdit :=
  dedupeLoop [] edits

/-! ### Diagnostic-to-edit translator (part_005: buildCanonicalEdits). -/

/-- document.getText(range) at the offsets of the range: the slice of the
document text between startOffset and endOffset. -/
def getText (text : List Char) (s e : Nat) : List Char :=
  (text.take e).drop s

/-- The loop of buildCanonicalEdits over the diagnostics returned by
doValidate: skip a diagnostic failing the isSuggestCanonicalClasses check,
skip one whose primary suggestion is falsy (absent, or the empty string),
skip a degenerate range (startOffset >= endOffset), otherwise push an edit
built from the primary suggestion and the original substring. -/
def collectEdits (text : List Char) : List Diagnostic → List TextEdit
  | [] => []
  | d :: rest =>
    if !d.suggestCanonical then collectEdits text rest
    else
      match d.suggestions.head? with
      | none => collectEdits text rest
      | some suggestion =>
        if suggestion = [] then collectEdits text rest
        else if d.rangeEnd ≤ d.rangeStart then collectEdits text rest
        else
          { startOffset := d.rangeStart, endOffset := d.rangeEnd,
            replacement := suggestion,
            original := getText text d.rangeStart d.rangeEnd }
            :: collectEdits text rest

/-- Embedded from buildCanonicalEdits, parametrized by the diagnostics the
external doValidate returned for the document: collect then dedupe. -/
def buildCanonicalEdits (diagnostics : List Diagnostic) (text : List Char) :
    List TextEdit :=
  dedupeEdits (collectEdits text diagnostics)

/-- Spec-side reference for one diagnostic of the translator: the same
skip-or-emit policy as one iteration of collectEdits (including the skip
of a falsy primary suggestion: absent or empty), as an Option. -/
def translateDiag (text : List Char) (d : Diagnostic) : Option TextEdit :=
  if !d.suggestCanonical then none
  else
    match d.suggestions.head? with
    | none => none
    | some suggestion =>
      if suggestion = [] then none
      else if d.rangeEnd ≤ d.rangeStart then none
      else
        some { startOffset := d.rangeStart, endOffset := d.rangeEnd,
               replacement := suggestion,
               original := getText text d.rangeStart d.rangeEnd }

/-! ### The document pipeline (part_005: canonicalizeDocument).
The design system, root directory and options only feed the construction of
the language-service state consumed by doValidate; the external doValidate
is embedded as the validate parameter producing the diagnostics for a
document text. -/

/-- Embedded from canonicalizeDocument: return the text unchanged when the
extension maps to no language id, otherwise build the canonical edits from
the analyzer diagnostics, return the text unchanged when there are none,
and apply them otherwise. -/
def canonicalizeDocument (validate : List Char → List Diagnostic)
    (filePath : String) (text : List Char) : List Char :=
  match inferLanguageId filePath with
  | none => text
  | some _ =>
    let edits := buildCanonicalEdits (validate text) text
    if edits.length = 0 then text
    else applyTextEdits text edits

/-! ### Design-system loader cache (packages/core/src/design-system.ts).
The module-level Map designSystemCache stores the pending promise of
loadTailwindDesignSystem under the cache key.  The body of getDesignSystem
is synchronous up to returning the cached promise (Map.has, Map.set and
Map.get never suspend), so on the single-threaded event loop concurrent
calls execute these bodies one after the other; the cache is embedded as
an association list and each created promise as a fresh load identifier,
nextLoadId counting the underlying loadTailwindDesignSystem invocations. -/

structure CacheState where
  cache : List (String × Nat)
  nextLoadId : Nat
deriving DecidableEq, Repr

/-- Map.get on the embedded cache. -/
def cacheLookup : List (String × Nat) → String → Option Nat
  | [], _ => none
  | (k, v) :: rest, key => if k = key then some v else cacheLookup rest key

/-- path.resolve(rootDir, cssPath): absolute paths stand, relative ones are
joined onto the root (normalization of dot segments is irrelevant here
because both concurrent calls resolve the same inputs identically). -/
def resolveCssPath (rootDir cssPath : String) : String :=
  if cssPath.data.head? = some '/' then cssPath
  else rootDir ++ "/" ++ cssPath

/-- The cache key of getDesignSystem: the resolved stylesheet path, or the
root-scoped sentinel default-prefixed key when no stylesheet is given. -/
def cacheKeyOf (rootDir : String) (cssPath : Option String) : String :=
  match cssPath with
  | some p => resolveCssPath rootDir p
  | none => "default:" ++ rootDir

/-- Embedded from getDesignSystem: on a missing key, store the promise of a
fresh underlying load and return it; otherwise return the stored promise
(settled or still pending). -/
def getDesignSystem (s : CacheState) (rootDir : String)
    (cssPath : Option String) : CacheState × Nat :=
  let cacheKey := cacheKeyOf rootDir cssPath
  match cacheLookup s.cache cacheKey with
  | some p => (s, p)
  | none =>
    ({ cache := (cacheKey, s.nextLoadId) :: s.cache,
       nextLoadId := s.nextLoadId + 1 }, s.nextLoadId)

/-! ### Batch orchestration (packages/cli/src/cli.ts). -/

inductive FileStatus where
  | changed
  | unchanged
  | skipped
  | error
deriving DecidableEq, Repr

/-- Embedded from FileResult (the optional message is dropped: no claim
reads it). -/
structure FileResult where
  filePath : String
  status : FileStatus
  editCount : Nat
deriving DecidableEq, Repr

/-- Embedded from RunSummary, the four counts of summarizeResults. -/
structure RunSummary where
  changed : Nat
  unchanged : Nat
  skipped : Nat
  errors : Nat
deriving DecidableEq, Repr

/-- Embedded from summarizeResults: one pass over the results incrementing
the count of each status. -/
def summarizeResults (results : List FileResult) : RunSummary :=
  results.foldl
    (fun acc r =>
      match r.status with
      | .changed => { acc with changed := acc.changed + 1 }
      | .unchanged => { acc with unchanged := acc.unchanged + 1 }
      | .skipped => { acc with skipped := acc.skipped + 1 }
      | .error => { acc with errors := acc.errors + 1 })
    { changed := 0, unchanged := 0, skipped := 0, errors := 0 }

/-- The filtering loop of resolveTargetFiles over the files the glob
returned: a file with an unsupported extension is dropped, a duplicate
path is dropped, everything else is kept in order. -/
def filterTargetLoop (seen : List String) : List String → List String
  | [] => []
  | f :: rest =>
    if !isSupportedExtension f then filterTargetLoop seen rest
    else if seen.contains f then filterTargetLoop seen rest
    else f :: filterTargetLoop (f :: seen) rest

/-- Embedded from resolveTargetFiles, with the glob call replaced by its
result list (the I/O boundary). -/
def resolveTargetFiles (globFiles : List String) : List String :=
  filterTargetLoop [] globFiles

def EXIT_SUCCESS : Nat := 0
def EXIT_FAILURE : Nat := 1

/-- The per-file results of the batch loop of main: the resolved targets,
each processed by processFile (whose file I/O and analysis are embedded as
the process parameter). -/
def batchResults (globFiles : List String)
    (process : String → FileResult) : List FileResult :=
  (resolveTargetFiles globFiles).map process

/-- Embedded from the control flow of main: the help/empty-target exit,
the no-matching-files exit, the missing-design-system exit, and otherwise
the batch whose exit status is failure exactly when the summary counts an
error (falling through to a successful exit otherwise). -/
def mainExitCode (helpFlag : Bool) (rawTargets : List String)
    (globFiles : List String) (designSystemAvailable : Bool)
    (process : String → FileResult) : Nat :=
  if helpFlag || rawTargets.length = 0 then
    if rawTargets.length = 0 then EXIT_FAILURE else EXIT_SUCCESS
  else
    let targets := resolveTargetFiles globFiles
    if targets.length = 0 then EXIT_FAILURE
    else if !designSystemAvailable then EXIT_FAILURE
    else
      let summary := summarizeResults (batchResults globFiles process)
      if summary.errors > 0 then EXIT_FAILURE else EXIT_SUCCESS

/-! ### A model of the external analyzer.
doValidate of the Tailwind language service is an external collaborator,
out of scope of the repository.  Modelled from the spec: the analyzer
"flags non-canonical class usages" with "a source range and a replacement
string", driven by the design system's capability
canonicalize(names) -> mapping(name -> canonical name).  The model scans
the space-separated tokens of the document; a token the design-system
mapping sends to a canonical spelling is flagged over exactly its range
with that single suggestion.  Distinct tokens occupy disjoint ranges, so
the modelled diagnostics are pairwise non-overlapping by construction. -/

/-- Diagnostics of the modelled analyzer over the pieces produced by
splitting on a space, with the running offset of the current piece. -/
def pieceDiags (canon : List Char → Option (List Char)) :
    Nat → List (List Char) → List Diagnostic
  | _, [] => []
  | i, p :: ps =>
    match canon p with
    | some c =>
      { rangeStart := i, rangeEnd := i + p.length,
        suggestions := [c], suggestCanonical := true }
        :: pieceDiags canon (i + p.length + 1) ps
    | none => pieceDiags canon (i + p.length + 1) ps

/-- Modelled from the spec: doValidate restricted to the
suggest-canonical-classes category, over the design-system mapping canon
(canon w is the canonical spelling when the token w is non-canonical,
none when w is already canonical or not a class). -/
def modelValidate (canon : List Char → Option (List Char))
    (text : List Char) : List Diagnostic :=
  pieceDiags canon 0 (text.splitOn ' ')

/-- The analyzer contract the spec assumes of the design system: the empty
token is never flagged, and a suggested canonical spelling is a nonempty
space-free token that the design system no longer flags. -/
def CanonContract (canon : List Char → Option (List Char)) : Prop :=
  canon [] = none ∧
    ∀ w c, canon w = some c → c ≠ [] ∧ ' ' ∉ c ∧ canon c = none

/-- The rewriting a flagged token undergoes: its canonical spelling when
the design system provides one, itself otherwise. -/
def rewritePiece (canon : List Char → Option (List Char))
    (p : List Char) : List Char :=
  match canon p with
  | some c => c
  | none => p

/-- The edits the translator derives from the modelled diagnostics of the
pieces, starting at a given offset (reference form used in proofs). -/
def pieceEdits (canon : List Char → Option (List Char)) (text : List Char) :
    Nat → List (List Char) → List TextEdit
  | _, [] => []
  | i, p :: ps =>
    match canon p with
    | some c =>
      { startOffset := i, endOffset := i + p.length,
        replacement := c, original := getText text i (i + p.length) }
        :: pieceEdits canon text (i + p.length + 1) ps
    | none => pieceEdits canon text (i + p.length + 1) ps

/-- The value of a decimal digit character (the inverse of the digit table
of the Nat repr used by editKey). -/
def digitVal (c : Char) : Nat := c.toNat - '0'.toNat

/-- The number a list of decimal digit characters denotes. -/
def decValue (ds : List Char) : Nat :=
  ds.foldl (fun acc c => acc * 10 + digitVal c) 0

/-- The skip test of the loop of applyTextEdits as the spec words it: an
edit is skipped exactly when its endOffset exceeds lastAppliedStart
(never, while lastAppliedStart is still infinity). -/
def skipsEdit (lastStart : Option Nat) (e : TextEdit) : Bool :=
  match lastStart with
  | none => false
  | some l => decide (l < e.endOffset)

/-- The spec's description of the applier as an explicit recursion over the
already-sorted edits: skip, or splice and remember the start. -/
def applyEditsLoop (out : List Char) (lastStart : Option Nat) :
    List TextEdit → List Char
  | [] => out
  | e :: rest =>
    if skipsEdit lastStart e then applyEditsLoop out lastStart rest
    else applyEditsLoop (spliceEdit out e) (some e.startOffset) rest

/-- A concrete one-entry design-system mapping (the spacing token example
of the spec) used to run the modelled analyzer on concrete input. -/
def canonW : List Char → Option (List Char) := fun w =>
  if w = "mt-[16px]".data then some "mt-4".data else none

/-! ### Decimal keys.
dedupeEdits keys its Set by the string startOffset + ":" + endOffset; the
lemmas here show this key determines the offset pair: decimal digit
strings are injective and never contain the separator. -/

theorem decValue_append_single (ds : List Char) (c : Char) :
    decValue (ds ++ [c]) = decValue ds * 10 + digitVal c := by
  simp [decValue, List.foldl_append]

theorem digitChar_isDigit {m : Nat} (h : m < 10) :
    (Nat.digitChar m).isDigit = true := by
  interval_cases m <;> decide

theorem digitVal_digitChar {m : Nat} (h : m < 10) :
    digitVal (Nat.digitChar m) = m := by
  interval_cases m <;> decide

theorem toDigitsCore_spec :
    ∀ (fuel n : Nat) (ds : List Char), 0 < fuel → n < 10 ^ fuel →
      ∃ D : List Char, Nat.toDigitsCore 10 fuel n ds = D ++ ds ∧
        decValue D = n ∧ D ≠ [] ∧ ∀ c ∈ D, c.isDigit = true := by
  intro fuel
  induction fuel with
  | zero => omega
  | succ f ih =>
    intro n ds _ hlt
    by_cases h10 : n / 10 = 0
    · refine ⟨[Nat.digitChar (n % 10)], ?_, ?_, by simp, ?_⟩
      · simp [Nat.toDigitsCore, h10]
      · simp [decValue, digitVal_digitChar (Nat.mod_lt n (by omega))]
        omega
      · intro c hc
        simp at hc
        subst hc
        exact digitChar_isDigit (Nat.mod_lt n (by omega))
    · have hf : 0 < f := by
        rcases Nat.eq_zero_or_pos f with h0 | h0
        · subst h0
          simp at hlt
          omega
        · exact h0
      have hn' : n / 10 < 10 ^ f := by
        have h1 : n < 10 ^ f * 10 := by
          have := hlt
          rw [pow_succ] at this
          omega
        omega
      obtain ⟨D, hD, hval, hne, hdig⟩ :=
        ih (n / 10) (Nat.digitChar (n % 10) :: ds) hf hn'
      refine ⟨D ++ [Nat.digitChar (n % 10)], ?_, ?_, by simp, ?_⟩
      · have : Nat.toDigitsCore 10 (f + 1) n ds
            = Nat.toDigitsCore 10 f (n / 10) (Nat.digitChar (n % 10) :: ds) := by
          simp [Nat.toDigitsCore, h10]
        rw [this, hD]
        simp
      · rw [decValue_append_single, hval,
          digitVal_digitChar (Nat.mod_lt n (by omega))]
        omega
      · intro c hc
        rcases List.mem_append.1 hc with h | h
        · exact hdig c h
        · simp at h
          subst h
          exact digitChar_isDigit (Nat.mod_lt n (by omega))

theorem toDigits_spec (n : Nat) :
    decValue (Nat.toDigits 10 n) = n ∧
      ∀ c ∈ Nat.toDigits 10 n, c.isDigit = true := by
  have hlt : n < 10 ^ (n + 1) := by
    calc n < 2 ^ n := Nat.lt_two_pow n
    _ ≤ 10 ^ n := Nat.pow_le_pow_left (by omega) n
    _ ≤ 10 ^ (n + 1) := Nat.pow_le_pow_right (by omega) (by omega)
  obtain ⟨D, hD, hval, _, hdig⟩ := toDigitsCore_spec (n + 1) n [] (by omega) hlt
  have hD' : Nat.toDigits 10 n = D := by
    rw [Nat.toDigits, hD]
    simp
  rw [hD']
  exact ⟨hval, hdig⟩

theorem reprData (n : Nat) : (Nat.repr n).data = Nat.toDigits 10 n := rfl

theorem reprInjective {m n : Nat} (h : (Nat.repr m).data = (Nat.repr n).data) :
    m = n := by
  rw [reprData, reprData] at h
  have hm := (toDigits_spec m).1
  rw [h, (toDigits_spec n).1] at hm
  exact hm.symm

theorem reprNoColon (n : Nat) : ':' ∉ (Nat.repr n).data := by
  rw [reprData]
  intro hc
  have := (toDigits_spec n).2 ':' hc
  simp [Char.isDigit] at this

theorem append_sep_inj :
    ∀ {Ds Ds' De De' : List Char},
      Ds ++ ':' :: De = Ds' ++ ':' :: De' → ':' ∉ Ds → ':' ∉ Ds' →
        Ds = Ds' ∧ De = De' := by
  intro Ds
  induction Ds with
  | nil =>
    intro Ds' De De' h h1 h2
    cases Ds' with
    | nil => simpa using h
    | cons b m =>
      exfalso
      simp at h
      exact h2 (by simp [← h.1])
  | cons a l ih =>
    intro Ds' De De' h h1 h2
    cases Ds' with
    | nil =>
      exfalso
      simp at h
      exact h1 (by simp [h.1])
    | cons b m =>
      simp at h
      obtain ⟨rfl, h⟩ := h
      obtain ⟨h3, h4⟩ := ih h (fun hx => h1 (List.mem_cons_of_mem _ hx))
        (fun hx => h2 (List.mem_cons_of_mem _ hx))
      exact ⟨by rw [h3], h4⟩

theorem editKey_eq_iff (e e' : TextEdit) :
    editKey e = editKey e' ↔
      e.startOffset = e'.startOffset ∧ e.endOffset = e'.endOffset := by
  constructor
  · intro h
    have hdata := congrArg String.data h
    simp only [editKey, String.data_append] at hdata
    simp only [List.append_assoc, List.singleton_append] at hdata
    obtain ⟨h1, h2⟩ := append_sep_inj hdata
      (reprNoColon e.startOffset) (reprNoColon e'.startOffset)
    exact ⟨reprInjective h1, reprInjective h2⟩
  · intro ⟨h1, h2⟩
    simp [editKey, h1, h2]

/-! ### Behaviour of dedupeEdits. -/

theorem dedupeLoop_congr (es : List TextEdit) :
    ∀ (seen₁ seen₂ : List String),
      (∀ k, seen₁.contains k = seen₂.contains k) →
      dedupeLoop seen₁ es = dedupeLoop seen₂ es := by
  induction es with
  | nil => intro _ _ _; rfl
  | cons e rest ih =>
    intro seen₁ seen₂ h
    simp only [dedupeLoop, h (editKey e)]
    by_cases hc : seen₂.contains (editKey e)
    · simp only [hc, if_pos]
      exact ih _ _ h
    · simp only [hc, Bool.false_eq_true, not_false_iff, reduceIte]
      have harg : ∀ k, (editKey e :: seen₁).contains k
          = (editKey e :: seen₂).contains k := by
        intro k
        simp only [List.contains_cons]
        rw [h k]
      exact congrArg (List.cons e) (ih _ _ harg)

theorem dedupeLoop_key_filter (es : List TextEdit) :
    ∀ (seen : List String) (k : String),
      dedupeLoop (k :: seen) es
        = dedupeLoop seen (es.filter (fun e => !(editKey e == k))) := by
  induction es with
  | nil => intro seen k; rfl
  | cons e rest ih =>
    intro seen k
    rw [List.filter_cons]
    by_cases hk : editKey e = k
    · have hkb : (!(editKey e == k)) = false := by simp [hk]
      rw [hkb]
      have h1 : ((k :: seen).contains (editKey e)) = true := by
        simp [List.contains_cons, hk]
      simp only [dedupeLoop, h1, Bool.false_eq_true, reduceIte, if_pos]
      exact ih seen k
    · have hkb : (!(editKey e == k)) = true := by simp [hk]
      rw [hkb]
      by_cases hs : seen.contains (editKey e) = true
      · have h1 : ((k :: seen).contains (editKey e)) = true := by
          simp only [List.contains_cons, hs, Bool.or_true]
        simp only [dedupeLoop, h1, hs, reduceIte, if_pos]
        exact ih seen k
      · have hsf : seen.contains (editKey e) = false := by
          simpa using hs
        have h1 : ((k :: seen).contains (editKey e)) = false := by
          simp only [List.contains_cons, hsf, Bool.or_false]
          simp [hk]
        simp only [dedupeLoop, h1, hsf, Bool.false_eq_true, not_false_iff,
          reduceIte]
        refine congrArg (List.cons e) ?_
        rw [dedupeLoop_congr rest
            (editKey e :: k :: seen) (k :: editKey e :: seen) ?_]
        · exact ih (editKey e :: seen) k
        · intro key
          simp only [List.contains_cons, ← Bool.or_assoc]
          rw [Bool.or_comm (key == editKey e) (key == k)]

theorem dedupeEdits_cons (e : TextEdit) (es : List TextEdit) :
    dedupeEdits (e :: es)
      = e :: dedupeEdits (es.filter (fun e' => !(editKey e' == editKey e))) := by
  simp only [dedupeEdits, dedupeLoop, List.contains_nil, Bool.false_eq_true,
    not_false_iff, reduceIte]
  rw [dedupeLoop_key_filter es [] (editKey e)]

theorem dedupeLoop_mem (es : List TextEdit) :
    ∀ {seen : List String} {e : TextEdit},
      e ∈ dedupeLoop seen es → e ∈ es := by
  induction es with
  | nil => intro _ _ h; simp [dedupeLoop] at h
  | cons a rest ih =>
    intro seen e h
    simp only [dedupeLoop] at h
    by_cases hc : seen.contains (editKey a)
    · rw [if_pos hc] at h
      exact List.mem_cons_of_mem _ (ih h)
    · rw [if_neg hc] at h
      rcases List.mem_cons.1 h with h | h
      · exact h ▸ List.mem_cons_self _ _
      · exact List.mem_cons_of_mem _ (ih h)

theorem dedupeLoop_eq_self (es : List TextEdit) :
    ∀ (seen : List String),
      (∀ e ∈ es, seen.contains (editKey e) = false) →
      (es.map editKey).Nodup →
      dedupeLoop seen es = es := by
  induction es with
  | nil => intro _ _ _; rfl
  | cons e rest ih =>
    intro seen hseen hnd
    simp only [List.map_cons, List.nodup_cons] at hnd
    simp only [dedupeLoop, hseen e (List.mem_cons_self _ _), Bool.false_eq_true,
      not_false_iff, reduceIte]
    rw [ih (editKey e :: seen) ?_ hnd.2]
    intro e' he'
    simp only [List.contains_cons, Bool.or_eq_false_iff]
    constructor
    · have : editKey e' ≠ editKey e := by
        intro hx
        exact hnd.1 (hx ▸ List.mem_map_of_mem editKey he')
      simp [this]
    · exact hseen e' (List.mem_cons_of_mem _ he')

theorem dedupeEdits_eq_self {es : List TextEdit}
    (hnd : (es.map editKey).Nodup) : dedupeEdits es = es :=
  dedupeLoop_eq_self es [] (fun _ _ => rfl) hnd

/-! ### Behaviour of applyTextEdits. -/

theorem foldl_applyStep_eq_loop (es : List TextEdit) :
    ∀ (out : List Char) (lastStart : Option Nat),
      (es.foldl applyStep (out, lastStart)).1 = applyEditsLoop out lastStart es := by
  induction es with
  | nil => intro out lastStart; rfl
  | cons e rest ih =>
    intro out lastStart
    cases lastStart with
    | none =>
      simp only [List.foldl_cons, applyStep, applyEditsLoop, skipsEdit,
        Bool.false_eq_true, not_false_iff, reduceIte]
      exact ih _ _
    | some l =>
      by_cases hl : l < e.endOffset
      · simp only [List.foldl_cons, applyStep, applyEditsLoop, skipsEdit, hl,
          decide_eq_true_eq, reduceIte, if_pos]
        exact ih _ _
      · simp only [List.foldl_cons, applyStep, applyEditsLoop, skipsEdit, hl,
          decide_eq_true_eq, reduceIte, if_neg]
        exact ih _ _

theorem applyTextEdits_eq_loop (t : List Char) (es : List TextEdit) :
    applyTextEdits t es = applyEditsLoop t none (sortByStartDesc es) := by
  unfold applyTextEdits
  by_cases h : es.length = 0
  · have : es = [] := List.length_eq_zero.1 h
    subst this
    simp [sortByStartDesc, List.mergeSort, applyEditsLoop]
  · simp only [h, reduceIte, if_neg]
    exact foldl_applyStep_eq_loop _ _ _

theorem foldl_applyStep_no_skip (es : List TextEdit) :
    ∀ (t : List Char) (L : Nat),
      es.Pairwise (fun a b => b.endOffset ≤ a.startOffset) →
      (∀ e, es.head? = some e → e.endOffset ≤ L) →
      ∃ L', es.foldl applyStep (t, some L) = (es.foldl spliceEdit t, some L') := by
  induction es with
  | nil => intro t L _ _; exact ⟨L, rfl⟩
  | cons e rest ih =>
    intro t L hchain hhead
    have he : e.endOffset ≤ L := hhead e rfl
    have hstep : applyStep (t, some L) e = (spliceEdit t e, some e.startOffset) := by
      simp only [applyStep]
      rw [if_neg (by omega)]
    simp only [List.foldl_cons, hstep]
    have hpw := List.pairwise_cons.1 hchain
    exact ih (spliceEdit t e) e.startOffset hpw.2
      (fun e' he' => hpw.1 e' (by
        cases rest with
        | nil => simp at he'
        | cons a l =>
          simp only [List.head?] at he'
          exact (Option.some.inj he') ▸ List.mem_cons_self a l))

theorem applyTextEdits_applies_all (t : List Char) (es : List TextEdit)
    (hchain : (sortByStartDesc es).Pairwise
      (fun a b => b.endOffset ≤ a.startOffset)) :
    applyTextEdits t es = (sortByStartDesc es).foldl spliceEdit t := by
  unfold applyTextEdits
  by_cases h : es.length = 0
  · have : es = [] := List.length_eq_zero.1 h
    subst this
    simp [sortByStartDesc, List.mergeSort]
  · simp only [h, reduceIte, if_neg]
    cases hs : sortByStartDesc es with
    | nil => simp
    | cons e rest =>
      rw [hs] at hchain
      have hpw := List.pairwise_cons.1 hchain
      have hstep : applyStep (t, (none : Option Nat)) e
          = (spliceEdit t e, some e.startOffset) := rfl
      simp only [List.foldl_cons, hstep]
      obtain ⟨L', hL'⟩ := foldl_applyStep_no_skip rest (spliceEdit t e)
        e.startOffset hpw.2
        (fun e' he' => hpw.1 e' (by
          cases rest with
          | nil => simp at he'
          | cons a l =>
            simp only [List.head?] at he'
            exact (Option.some.inj he') ▸ List.mem_cons_self a l))
      rw [hL']

/-! ### Sorting facts. -/

theorem sortByStartDesc_perm (es : List TextEdit) :
    (sortByStartDesc es).Perm es :=
  List.mergeSort_perm es _

theorem sortByStartDesc_sorted (es : List TextEdit) :
    (sortByStartDesc es).Pairwise (fun a b => b.startOffset ≤ a.startOffset) := by
  have h := @List.sorted_mergeSort TextEdit
    (fun a b : TextEdit => decide (b.startOffset ≤ a.startOffset))
    (fun a b c hab hbc => by
      simp only [decide_eq_true_eq] at *
      omega)
    (fun a b => by
      simp only [Bool.or_eq_true, decide_eq_true_eq]
      omega)
    es
  exact h.imp (fun hab => by simpa using hab)

theorem sortByStartDesc_strict {es : List TextEdit}
    (hne : es.Pairwise (fun a b => a.startOffset ≠ b.startOffset)) :
    (sortByStartDesc es).Pairwise (fun a b => b.startOffset < a.startOffset) := by
  have hne' : (sortByStartDesc es).Pairwise
      (fun a b => a.startOffset ≠ b.startOffset) :=
    (List.Perm.pairwise_iff (fun h => h.symm) (sortByStartDesc_perm es)).2 hne
  exact ((sortByStartDesc_sorted es).and hne').imp
    (fun h => lt_of_le_of_ne h.1 (Ne.symm h.2))

theorem sortByStartDesc_unique {es₁ es₂ : List TextEdit}
    (hperm : es₁.Perm es₂)
    (hne : es₁.Pairwise (fun a b => a.startOffset ≠ b.startOffset)) :
    sortByStartDesc es₁ = sortByStartDesc es₂ := by
  have hne₂ : es₂.Pairwise (fun a b => a.startOffset ≠ b.startOffset) :=
    (List.Perm.pairwise_iff (fun h => h.symm) hperm).1 hne
  have hp : (sortByStartDesc es₁).Perm (sortByStartDesc es₂) :=
    ((sortByStartDesc_perm es₁).trans hperm).trans (sortByStartDesc_perm es₂).symm
  have : IsAntisymm TextEdit (fun a b => b.startOffset < a.startOffset) :=
    ⟨fun a b h h' => by omega⟩
  exact List.eq_of_perm_of_sorted hp
    (sortByStartDesc_strict hne) (sortByStartDesc_strict hne₂)

theorem sortByStartDesc_of_ascending {es : List TextEdit}
    (hasc : es.Pairwise (fun a b => a.startOffset < b.startOffset)) :
    sortByStartDesc es = es.reverse := by
  have hp : (sortByStartDesc es).Perm es.reverse :=
    (sortByStartDesc_perm es).trans (List.reverse_perm es).symm
  have : IsAntisymm TextEdit (fun a b => b.startOffset < a.startOffset) :=
    ⟨fun a b h h' => by omega⟩
  refine List.eq_of_perm_of_sorted hp
    (sortByStartDesc_strict (hasc.imp (fun h => by omega))) ?_
  exact List.pairwise_reverse.2 hasc

/-! ### Behaviour of the translator. -/

theorem collectEdits_eq_filterMap (t : List Char) :
    ∀ diags : List Diagnostic,
      collectEdits t diags = diags.filterMap (translateDiag t) := by
  intro diags
  induction diags with
  | nil => rfl
  | cons d rest ih =>
    rw [List.filterMap_cons]
    by_cases hk : d.suggestCanonical
    · have hk' : (!d.suggestCanonical) = false := by simp [hk]
      cases hh : d.suggestions.head? with
      | none =>
        simp only [collectEdits, translateDiag, hk', hh, Bool.false_eq_true,
          not_false_iff, reduceIte]
        exact ih
      | some s =>
        by_cases hs0 : s = []
        · simp only [collectEdits, translateDiag, hk', hh, hs0,
            Bool.false_eq_true, not_false_iff, reduceIte]
          exact ih
        · by_cases hd : d.rangeEnd ≤ d.rangeStart
          · simp only [collectEdits, translateDiag, hk', hh, hs0, hd,
              Bool.false_eq_true, not_false_iff, reduceIte, if_pos]
            exact ih
          · simp only [collectEdits, translateDiag, hk', hh, hs0, hd,
              Bool.false_eq_true, not_false_iff, reduceIte, if_neg]
            rw [ih]
    · have hk' : (!d.suggestCanonical) = true := by simp [hk]
      simp only [collectEdits, translateDiag, hk', reduceIte, if_pos]
      exact ih

theorem collectEdits_start_lt_end (t : List Char) :
    ∀ (diags : List Diagnostic), ∀ e ∈ collectEdits t diags,
      e.startOffset < e.endOffset := by
  intro diags
  induction diags with
  | nil => intro e he; simp [collectEdits] at he
  | cons d rest ih =>
    intro e he
    by_cases hk : d.suggestCanonical
    · have hk' : (!d.suggestCanonical) = false := by simp [hk]
      cases hh : d.suggestions.head? with
      | none =>
        simp only [collectEdits, hk', hh, Bool.false_eq_true,
          not_false_iff, reduceIte] at he
        exact ih e he
      | some s =>
        by_cases hs0 : s = []
        · simp only [collectEdits, hk', hh, hs0, Bool.false_eq_true,
            not_false_iff, reduceIte] at he
          exact ih e he
        · by_cases hd : d.rangeEnd ≤ d.rangeStart
          · simp only [collectEdits, hk', hh, hs0, hd, Bool.false_eq_true,
              not_false_iff, reduceIte, if_pos] at he
            exact ih e he
          · simp only [collectEdits, hk', hh, hs0, hd, Bool.false_eq_true,
              not_false_iff, reduceIte, if_neg] at he
            rcases List.mem_cons.1 he with h | h
            · subst h
              simpa using Nat.lt_of_not_le hd
            · exact ih e h
    · have hk' : (!d.suggestCanonical) = true := by simp [hk]
      simp only [collectEdits, hk', reduceIte, if_pos] at he
      exact ih e he

theorem collectEdits_provenance (t : List Char) :
    ∀ (diags : List Diagnostic), ∀ e ∈ collectEdits t diags,
      ∃ d ∈ diags, d.suggestCanonical = true ∧
        d.suggestions.head? = some e.replacement ∧
        e.startOffset = d.rangeStart ∧ e.endOffset = d.rangeEnd ∧
        e.original = getText t d.rangeStart d.rangeEnd := by
  intro diags
  induction diags with
  | nil => intro e he; simp [collectEdits] at he
  | cons d rest ih =>
    intro e he
    by_cases hk : d.suggestCanonical
    · have hk' : (!d.suggestCanonical) = false := by simp [hk]
      cases hh : d.suggestions.head? with
      | none =>
        simp only [collectEdits, hk', hh, Bool.false_eq_true,
          not_false_iff, reduceIte] at he
        obtain ⟨d', hd', hrest⟩ := ih e he
        exact ⟨d', List.mem_cons_of_mem _ hd', hrest⟩
      | some s =>
        by_cases hs0 : s = []
        · simp only [collectEdits, hk', hh, hs0, Bool.false_eq_true,
            not_false_iff, reduceIte] at he
          obtain ⟨d', hd', hrest⟩ := ih e he
          exact ⟨d', List.mem_cons_of_mem _ hd', hrest⟩
        · by_cases hd : d.rangeEnd ≤ d.rangeStart
          · simp only [collectEdits, hk', hh, hs0, hd, Bool.false_eq_true,
              not_false_iff, reduceIte, if_pos] at he
            obtain ⟨d', hd', hrest⟩ := ih e he
            exact ⟨d', List.mem_cons_of_mem _ hd', hrest⟩
          · simp only [collectEdits, hk', hh, hs0, hd, Bool.false_eq_true,
              not_false_iff, reduceIte, if_neg] at he
            rcases List.mem_cons.1 he with h | h
            · subst h
              exact ⟨d, List.mem_cons_self _ _, hk, by simpa using hh,
                rfl, rfl, rfl⟩
            · obtain ⟨d', hd', hrest⟩ := ih e h
              exact ⟨d', List.mem_cons_of_mem _ hd', hrest⟩
    · have hk' : (!d.suggestCanonical) = true := by simp [hk]
      simp only [collectEdits, hk', reduceIte, if_pos] at he
      obtain ⟨d', hd', hrest⟩ := ih e he
      exact ⟨d', List.mem_cons_of_mem _ hd', hrest⟩

/-! ### Facts about splitting on the space separator. -/

theorem splitOnP_not_mem (p : Char → Bool) :
    ∀ (xs : List Char), ∀ l ∈ xs.splitOnP p, ∀ c ∈ l, ¬(p c = true) := by
  intro xs
  induction xs with
  | nil =>
    intro l hl c hc
    simp only [List.splitOnP_nil, List.mem_singleton] at hl
    subst hl
    simp at hc
  | cons x xs ih =>
    intro l hl c hc
    rw [List.splitOnP_cons] at hl
    by_cases hx : p x
    · rw [if_pos hx] at hl
      rcases List.mem_cons.1 hl with h | h
      · subst h; simp at hc
      · exact ih l h c hc
    · rw [if_neg hx] at hl
      obtain ⟨hd, tl, hsp⟩ : ∃ hd tl, xs.splitOnP p = hd :: tl := by
        cases hsp : xs.splitOnP p with
        | nil => exact absurd hsp (List.splitOnP_ne_nil p xs)
        | cons a b => exact ⟨a, b, rfl⟩
      rw [hsp, List.modifyHead_cons] at hl
      rcases List.mem_cons.1 hl with h | h
      · subst h
        rcases List.mem_cons.1 hc with h | h
        · subst h; exact hx
        · exact ih hd (by rw [hsp]; exact List.mem_cons_self _ _) c h
      · exact ih l (by rw [hsp]; exact List.mem_cons_of_mem _ h) c hc

theorem splitOn_space_not_mem (t : List Char) :
    ∀ p ∈ t.splitOn ' ', ' ' ∉ p := by
  intro p hp hc
  have h := splitOnP_not_mem (· == ' ') t p (by simpa [List.splitOn] using hp) ' ' hc
  simp at h

theorem splitOn_space_ne_nil (t : List Char) : t.splitOn ' ' ≠ [] := by
  simp only [List.splitOn]
  exact List.splitOnP_ne_nil _ t

/-! ### The modelled analyzer: structure of its diagnostics and edits. -/

theorem collectEdits_pieceDiags {canon : List Char → Option (List Char)}
    (hc : CanonContract canon) (t : List Char) :
    ∀ (ps : List (List Char)) (i : Nat),
      collectEdits t (pieceDiags canon i ps) = pieceEdits canon t i ps := by
  intro ps
  induction ps with
  | nil => intro i; rfl
  | cons p ps ih =>
    intro i
    cases hcp : canon p with
    | none =>
      simp only [pieceDiags, pieceEdits, hcp]
      exact ih _
    | some c =>
      have hpne : p ≠ [] := by
        intro h
        subst h
        rw [hc.1] at hcp
        cases hcp
      have hlen : 0 < p.length := List.length_pos.2 hpne
      have hcne : ¬(c = []) := (hc.2 p c hcp).1
      simp only [pieceDiags, pieceEdits, hcp, collectEdits, Bool.not_true,
        Bool.false_eq_true, not_false_iff, reduceIte, List.head?, hcne]
      rw [if_neg (by omega)]
      rw [ih _]

theorem pieceEdits_start_bound {canon : List Char → Option (List Char)}
    (hc : CanonContract canon) (t : List Char) :
    ∀ (ps : List (List Char)) (i : Nat), ∀ e ∈ pieceEdits canon t i ps,
      i ≤ e.startOffset ∧ e.startOffset < e.endOffset := by
  intro ps
  induction ps with
  | nil => intro i e he; simp [pieceEdits] at he
  | cons p ps ih =>
    intro i e he
    cases hcp : canon p with
    | none =>
      rw [pieceEdits, hcp] at he
      have := ih _ e he
      omega
    | some c =>
      have hpne : p ≠ [] := by
        intro h
        subst h
        rw [hc.1] at hcp
        cases hcp
      have hlen : 0 < p.length := List.length_pos.2 hpne
      rw [pieceEdits, hcp] at he
      rcases List.mem_cons.1 he with h | h
      · subst h
        simp only
        omega
      · have := ih _ e h
        omega

theorem pieceEdits_chain {canon : List Char → Option (List Char)}
    (hc : CanonContract canon) (t : List Char) :
    ∀ (ps : List (List Char)) (i : Nat),
      (pieceEdits canon t i ps).Pairwise
        (fun a b => a.endOffset < b.startOffset ∧
          a.startOffset < b.startOffset) := by
  intro ps
  induction ps with
  | nil => intro i; simp [pieceEdits]
  | cons p ps ih =>
    intro i
    cases hcp : canon p with
    | none =>
      rw [pieceEdits, hcp]
      exact ih _
    | some c =>
      have hpne : p ≠ [] := by
        intro h
        subst h
        rw [hc.1] at hcp
        cases hcp
      have hlen : 0 < p.length := List.length_pos.2 hpne
      rw [pieceEdits, hcp]
      refine List.pairwise_cons.2 ⟨?_, ih _⟩
      intro b hb
      have := pieceEdits_start_bound hc t ps _ b hb
      simp only
      omega

theorem pieceDiags_start_bound {canon : List Char → Option (List Char)} :
    ∀ (ps : List (List Char)) (i : Nat), ∀ d ∈ pieceDiags canon i ps,
      i ≤ d.rangeStart := by
  intro ps
  induction ps with
  | nil => intro i d hd; simp [pieceDiags] at hd
  | cons p ps ih =>
    intro i d hd
    cases hcp : canon p with
    | none =>
      rw [pieceDiags, hcp] at hd
      have := ih _ d hd
      omega
    | some c =>
      rw [pieceDiags, hcp] at hd
      rcases List.mem_cons.1 hd with h | h
      · subst h
        simp
      · have := ih _ d h
        omega

theorem pieceDiags_chain {canon : List Char → Option (List Char)} :
    ∀ (ps : List (List Char)) (i : Nat),
      (pieceDiags canon i ps).Pairwise
        (fun a b => a.rangeEnd ≤ b.rangeStart) := by
  intro ps
  induction ps with
  | nil => intro i; simp [pieceDiags]
  | cons p ps ih =>
    intro i
    cases hcp : canon p with
    | none =>
      rw [pieceDiags, hcp]
      exact ih _
    | some c =>
      rw [pieceDiags, hcp]
      refine List.pairwise_cons.2 ⟨?_, ih _⟩
      intro b hb
      have := pieceDiags_start_bound ps _ b hb
      simp only
      omega

theorem pieceEdits_keys_nodup {canon : List Char → Option (List Char)}
    (hc : CanonContract canon) (t : List Char)
    (ps : List (List Char)) (i : Nat) :
    ((pieceEdits canon t i ps).map editKey).Nodup := by
  rw [List.Nodup, List.pairwise_map]
  refine (pieceEdits_chain hc t ps i).imp ?_
  intro a b hab hk
  have := (editKey_eq_iff a b).1 hk
  omega

theorem buildEdits_model {canon : List Char → Option (List Char)}
    (hc : CanonContract canon) (t : List Char) :
    buildCanonicalEdits (modelValidate canon t) t
      = pieceEdits canon t 0 (t.splitOn ' ') := by
  rw [buildCanonicalEdits, modelValidate, collectEdits_pieceDiags hc t _ 0]
  exact dedupeEdits_eq_self (pieceEdits_keys_nodup hc t _ 0)

theorem pieceEdits_eq_nil_iff {canon : List Char → Option (List Char)}
    (t : List Char) :
    ∀ (ps : List (List Char)) (i : Nat),
      pieceEdits canon t i ps = [] ↔ ∀ p ∈ ps, canon p = none := by
  intro ps
  induction ps with
  | nil => intro i; simp [pieceEdits]
  | cons p ps ih =>
    intro i
    cases hcp : canon p with
    | none =>
      rw [pieceEdits, hcp]
      rw [ih _]
      constructor
      · intro h q hq
        rcases List.mem_cons.1 hq with h' | h'
        · subst h'; exact hcp
        · exact h q h'
      · intro h q hq
        exact h q (List.mem_cons_of_mem _ hq)
    | some c =>
      rw [pieceEdits, hcp]
      constructor
      · intro h; cases h
      · intro h
        have := h p (List.mem_cons_self _ _)
        rw [hcp] at this
        cases this

/-! ### Applying the modelled edits rewrites the pieces. -/

theorem intercalate_nil_pieces : [' '].intercalate ([] : List (List Char)) = [] := rfl

theorem intercalate_single (p : List Char) : [' '].intercalate [p] = p := by
  simp [List.intercalate]

theorem intercalate_cons₂ (p q : List Char) (qs : List (List Char)) :
    [' '].intercalate (p :: q :: qs) = p ++ ' ' :: [' '].intercalate (q :: qs) := by
  simp [List.intercalate]

theorem pieceEdits_cons_none {canon : List Char → Option (List Char)}
    {p : List Char} (hcp : canon p = none) (t : List Char) (i : Nat)
    (ps : List (List Char)) :
    pieceEdits canon t i (p :: ps) = pieceEdits canon t (i + p.length + 1) ps := by
  rw [pieceEdits, hcp]

theorem pieceEdits_cons_some {canon : List Char → Option (List Char)}
    {p c : List Char} (hcp : canon p = some c) (t : List Char) (i : Nat)
    (ps : List (List Char)) :
    pieceEdits canon t i (p :: ps)
      = { startOffset := i, endOffset := i + p.length, replacement := c,
          original := getText t i (i + p.length) }
        :: pieceEdits canon t (i + p.length + 1) ps := by
  rw [pieceEdits, hcp]

theorem spliceEdit_append (pre mid rest repl orig : List Char) :
    spliceEdit (pre ++ (mid ++ rest))
        { startOffset := pre.length, endOffset := pre.length + mid.length,
          replacement := repl, original := orig }
      = pre ++ (repl ++ rest) := by
  have h1 : (pre ++ (mid ++ rest)).take pre.length = pre := List.take_left' rfl
  have h2 : (pre ++ (mid ++ rest)).drop (pre.length + mid.length) = rest := by
    rw [← List.append_assoc]
    exact List.drop_left' (by simp)
  simp only [spliceEdit, h1, h2]
  simp

theorem foldr_pieceEdits {canon : List Char → Option (List Char)}
    (t : List Char) :
    ∀ (ps : List (List Char)) (pre : List Char),
      List.foldr (fun e acc => spliceEdit acc e)
          (pre ++ [' '].intercalate ps)
          (pieceEdits canon t pre.length ps)
        = pre ++ [' '].intercalate (ps.map (rewritePiece canon)) := by
  intro ps
  induction ps with
  | nil => intro pre; rfl
  | cons p ps ih =>
    intro pre
    cases ps with
    | nil =>
      cases hcp : canon p with
      | none =>
        rw [pieceEdits_cons_none hcp]
        simp only [pieceEdits, List.foldr_nil, List.map_cons, List.map_nil,
          rewritePiece, hcp]
      | some c =>
        rw [pieceEdits_cons_some hcp]
        simp only [pieceEdits, List.foldr_cons, List.foldr_nil, intercalate_single]
        rw [show pre ++ p = pre ++ (p ++ []) by simp,
          spliceEdit_append pre p [] c _]
        simp [List.map_cons, List.map_nil, intercalate_single, rewritePiece, hcp]
    | cons q qs =>
      have hbase : pre ++ [' '].intercalate (p :: q :: qs)
          = (pre ++ p ++ [' ']) ++ [' '].intercalate (q :: qs) := by
        rw [intercalate_cons₂]
        simp
      have hlen : (pre ++ p ++ [' ']).length = pre.length + p.length + 1 := by
        simp only [List.length_append, List.length_cons, List.length_nil]
      have IH := ih (pre ++ p ++ [' '])
      rw [hlen] at IH
      cases hcp : canon p with
      | none =>
        rw [pieceEdits_cons_none hcp, hbase, IH]
        simp only [List.map_cons, intercalate_cons₂, rewritePiece, hcp]
        simp
      | some c =>
        rw [pieceEdits_cons_some hcp]
        simp only [List.foldr_cons]
        rw [hbase, IH]
        rw [show pre ++ p ++ [' ']
              ++ [' '].intercalate ((q :: qs).map (rewritePiece canon))
            = pre ++ (p ++ ([' ']
              ++ [' '].intercalate ((q :: qs).map (rewritePiece canon))))
            by simp]
        rw [show (pre.length + p.length : Nat)
            = pre.length + p.length by rfl]
        rw [spliceEdit_append pre p
          ([' '] ++ [' '].intercalate ((q :: qs).map (rewritePiece canon))) c _]
        simp only [List.map_cons, intercalate_cons₂, rewritePiece, hcp]
        simp

theorem canonicalizeDocument_model_none {canon : List Char → Option (List Char)}
    {fp : String} (t : List Char) (h : inferLanguageId fp = none) :
    canonicalizeDocument (modelValidate canon) fp t = t := by
  unfold canonicalizeDocument
  rw [h]

theorem canonicalizeDocument_model_some {canon : List Char → Option (List Char)}
    (hc : CanonContract canon) {fp : String} (t : List Char) {lid : String}
    (h : inferLanguageId fp = some lid) :
    canonicalizeDocument (modelValidate canon) fp t
      = [' '].intercalate ((t.splitOn ' ').map (rewritePiece canon)) := by
  unfold canonicalizeDocument
  rw [h]
  simp only
  rw [buildEdits_model hc t]
  by_cases he : (pieceEdits canon t 0 (t.splitOn ' ')).length = 0
  · rw [if_pos he]
    have hnil : pieceEdits canon t 0 (t.splitOn ' ') = [] :=
      List.length_eq_zero.1 he
    have hall := (pieceEdits_eq_nil_iff t _ 0).1 hnil
    rw [List.map_congr_left (g := fun p => p)
      (fun p hp => by simp [rewritePiece, hall p hp]), List.map_id']
    exact (List.intercalate_splitOn t ' ').symm
  · rw [if_neg he]
    have hchain := pieceEdits_chain hc t (t.splitOn ' ') 0
    have hasc : (pieceEdits canon t 0 (t.splitOn ' ')).Pairwise
        (fun a b => a.startOffset < b.startOffset) :=
      hchain.imp (fun h => h.2)
    have hsort := sortByStartDesc_of_ascending hasc
    have happly := applyTextEdits_applies_all t
      (pieceEdits canon t 0 (t.splitOn ' '))
      (by
        rw [hsort]
        exact List.pairwise_reverse.2
          (hchain.imp (fun h => Nat.le_of_lt h.1)))
    rw [happly, hsort, List.foldl_reverse]
    have hfold := @foldr_pieceEdits canon t (t.splitOn ' ') []
    simp only [List.length_nil, List.nil_append] at hfold
    rw [List.intercalate_splitOn t ' '] at hfold
    exact hfold

/-- C1: for every document whose diagnostics are pairwise non-overlapping
(which the modelled analyzer produces by construction, witnessed by the
second conjunct), running canonicalizeDocument twice yields the same text
as running it once. -/
theorem canonicalizeDocument_idempotent
    (canon : List Char → Option (List Char)) (fp : String) (t : List Char)
    (hc : CanonContract canon) :
    canonicalizeDocument (modelValidate canon) fp
        (canonicalizeDocument (modelValidate canon) fp t)
      = canonicalizeDocument (modelValidate canon) fp t ∧
    (modelValidate canon t).Pairwise
      (fun d d' => d.rangeEnd ≤ d'.rangeStart ∨ d'.rangeEnd ≤ d.rangeStart) := by
  constructor
  · cases hlang : inferLanguageId fp with
    | none =>
      rw [canonicalizeDocument_model_none _ hlang,
        canonicalizeDocument_model_none _ hlang]
    | some lid =>
      rw [canonicalizeDocument_model_some hc t hlang,
        canonicalizeDocument_model_some hc
          ([' '].intercalate ((t.splitOn ' ').map (rewritePiece canon))) hlang]
      have hsp : ([' '].intercalate
            ((t.splitOn ' ').map (rewritePiece canon))).splitOn ' '
          = (t.splitOn ' ').map (rewritePiece canon) := by
        apply List.splitOn_intercalate
        · intro l hl
          obtain ⟨p, hp, rfl⟩ := List.mem_map.1 hl
          cases hcp : canon p with
          | none =>
            simpa [rewritePiece, hcp] using splitOn_space_not_mem t p hp
          | some c =>
            simpa [rewritePiece, hcp] using (hc.2 p c hcp).2.1
        · intro hmap
          exact splitOn_space_ne_nil t (List.map_eq_nil_iff.1 hmap)
      rw [hsp, List.map_map]
      congr 1
      apply List.map_congr_left
      intro p hp
      simp only [Function.comp]
      cases hcp : canon p with
      | none => simp [rewritePiece, hcp]
      | some c => simp [rewritePiece, hcp, (hc.2 p c hcp).2.2]
  · exact (pieceDiags_chain _ 0).imp (fun h => Or.inl h)

/-! ### The claims. -/

theorem canonW_contract : CanonContract canonW := by
  constructor
  · decide
  · intro w c h
    unfold canonW at h
    by_cases hw : w = "mt-[16px]".data
    · rw [if_pos hw] at h
      obtain rfl : "mt-4".data = c := Option.some.inj h
      exact ⟨by decide, by decide, by decide⟩
    · rw [if_neg hw] at h
      cases h

/-- C1 witness: the idempotence theorem applied to the concrete document
"mt-[16px] p-2" under the concrete one-entry design-system mapping. -/
theorem canonicalizeDocument_idempotent_witness :
    canonicalizeDocument (modelValidate canonW) "/app/page.tsx"
        (canonicalizeDocument (modelValidate canonW) "/app/page.tsx"
          "mt-[16px] p-2".data)
      = canonicalizeDocument (modelValidate canonW) "/app/page.tsx"
          "mt-[16px] p-2".data ∧
    (modelValidate canonW "mt-[16px] p-2".data).Pairwise
      (fun d d' => d.rangeEnd ≤ d'.rangeStart ∨ d'.rangeEnd ≤ d.rangeStart) :=
  canonicalizeDocument_idempotent canonW "/app/page.tsx"
    "mt-[16px] p-2".data canonW_contract

/-- C2: applyTextEdits processes the edits sorted by descending
startOffset tracking lastAppliedStart (initially infinity), silently
skipping any edit whose endOffset exceeds it and splicing every other
edit; on the overlapping pair (0,5,A) and (3,8,B) exactly the edit with
the larger startOffset is applied and the splice stays in range. -/
theorem applyTextEdits_overlap_policy (t : List Char) (h8 : 8 ≤ t.length) :
    (∀ (u : List Char) (es : List TextEdit),
        applyTextEdits u es = applyEditsLoop u none (sortByStartDesc es)) ∧
    applyTextEdits t
        [⟨0, 5, "A".data, "".data⟩, ⟨3, 8, "B".data, "".data⟩]
      = t.take 3 ++ "B".data ++ t.drop 8 ∧
    applyTextEdits t
        [⟨3, 8, "B".data, "".data⟩, ⟨0, 5, "A".data, "".data⟩]
      = t.take 3 ++ "B".data ++ t.drop 8 ∧
    (t.take 3 ++ "B".data ++ t.drop 8).length = t.length - 4 := by
  have hsort1 : sortByStartDesc
      [(⟨0, 5, "A".data, "".data⟩ : TextEdit), ⟨3, 8, "B".data, "".data⟩]
      = [⟨3, 8, "B".data, "".data⟩, ⟨0, 5, "A".data, "".data⟩] := by
    rw [sortByStartDesc_of_ascending (by decide)]
    rfl
  have hsort2 : sortByStartDesc
      [(⟨3, 8, "B".data, "".data⟩ : TextEdit), ⟨0, 5, "A".data, "".data⟩]
      = [⟨3, 8, "B".data, "".data⟩, ⟨0, 5, "A".data, "".data⟩] := by
    rw [sortByStartDesc_unique
      (show ([(⟨3, 8, "B".data, "".data⟩ : TextEdit),
          ⟨0, 5, "A".data, "".data⟩]).Perm
          [⟨0, 5, "A".data, "".data⟩, ⟨3, 8, "B".data, "".data⟩]
        from List.Perm.swap _ _ _) (by decide), hsort1]
  refine ⟨fun u es => applyTextEdits_eq_loop u es, ?_, ?_, ?_⟩
  · rw [applyTextEdits_eq_loop, hsort1]
    simp [applyEditsLoop, skipsEdit, spliceEdit]
  · rw [applyTextEdits_eq_loop, hsort2]
    simp [applyEditsLoop, skipsEdit, spliceEdit]
  · have hB : ("B".data).length = 1 := rfl
    simp only [List.length_append, List.length_take, List.length_drop, hB]
    omega

/-- C2 witness at the concrete ten-character text. -/
theorem applyTextEdits_overlap_policy_witness :
    applyTextEdits "abcdefghij".data
        [⟨0, 5, "A".data, "".data⟩, ⟨3, 8, "B".data, "".data⟩]
      = "abcdefghij".data.take 3 ++ "B".data ++ "abcdefghij".data.drop 8 :=
  (applyTextEdits_overlap_policy "abcdefghij".data (by decide)).2.1

/-- C3: pairwise non-overlapping valid edits are all applied (no edit is
skipped: the applier reduces to a pure fold of splices over the sorted
edits) and the outcome does not depend on the input order; on the text
a[16px]b[8px]c the two replacement edits yield aXbYc in either order. -/
theorem applyTextEdits_order_independent
    (t : List Char) (es₁ es₂ : List TextEdit)
    (hvalid : ∀ e ∈ es₁, e.startOffset < e.endOffset)
    (hsep : es₁.Pairwise
      (fun a b => a.endOffset ≤ b.startOffset ∨ b.endOffset ≤ a.startOffset))
    (hperm : es₁.Perm es₂) :
    applyTextEdits t es₁ = applyTextEdits t es₂ ∧
    applyTextEdits t es₁ = (sortByStartDesc es₁).foldl spliceEdit t ∧
    applyTextEdits "a[16px]b[8px]c".data
        [⟨1, 7, "X".data, "[16px]".data⟩, ⟨8, 13, "Y".data, "[8px]".data⟩]
      = "aXbYc".data ∧
    applyTextEdits "a[16px]b[8px]c".data
        [⟨8, 13, "Y".data, "[8px]".data⟩, ⟨1, 7, "X".data, "[16px]".data⟩]
      = "aXbYc".data := by
  have hne : es₁.Pairwise (fun a b => a.startOffset ≠ b.startOffset) := by
    refine hsep.imp_of_mem ?_
    intro a b ha hb hab
    have h1 := hvalid a ha
    have h2 := hvalid b hb
    rcases hab with h | h <;> omega
  have hsA : sortByStartDesc
      [(⟨1, 7, "X".data, "[16px]".data⟩ : TextEdit),
       ⟨8, 13, "Y".data, "[8px]".data⟩]
      = [⟨8, 13, "Y".data, "[8px]".data⟩, ⟨1, 7, "X".data, "[16px]".data⟩] := by
    rw [sortByStartDesc_of_ascending (by decide)]
    rfl
  have hsB : sortByStartDesc
      [(⟨8, 13, "Y".data, "[8px]".data⟩ : TextEdit),
       ⟨1, 7, "X".data, "[16px]".data⟩]
      = [⟨8, 13, "Y".data, "[8px]".data⟩, ⟨1, 7, "X".data, "[16px]".data⟩] := by
    rw [sortByStartDesc_unique
      (show ([(⟨8, 13, "Y".data, "[8px]".data⟩ : TextEdit),
          ⟨1, 7, "X".data, "[16px]".data⟩]).Perm
          [⟨1, 7, "X".data, "[16px]".data⟩, ⟨8, 13, "Y".data, "[8px]".data⟩]
        from List.Perm.swap _ _ _) (by decide), hsA]
  refine ⟨?_, ?_,
    by rw [applyTextEdits_eq_loop, hsA]; decide,
    by rw [applyTextEdits_eq_loop, hsB]; decide⟩
  · unfold applyTextEdits
    rw [← hperm.length_eq, sortByStartDesc_unique hperm hne]
  · apply applyTextEdits_applies_all
    have hsep' : (sortByStartDesc es₁).Pairwise
        (fun a b => a.endOffset ≤ b.startOffset ∨ b.endOffset ≤ a.startOffset) :=
      (List.Perm.pairwise_iff (fun h => h.symm) (sortByStartDesc_perm es₁)).2 hsep
    refine ((sortByStartDesc_sorted es₁).and hsep').imp_of_mem ?_
    intro a b ha hb hab
    have h1 := hvalid a ((sortByStartDesc_perm es₁).subset ha)
    have h2 := hvalid b ((sortByStartDesc_perm es₁).subset hb)
    rcases hab.2 with h | h
    · have := hab.1
      omega
    · exact h

/-- C3 witness: the two concrete non-overlapping edits in both orders. -/
theorem applyTextEdits_order_independent_witness :
    applyTextEdits "a[16px]b[8px]c".data
        [⟨1, 7, "X".data, "[16px]".data⟩, ⟨8, 13, "Y".data, "[8px]".data⟩]
      = applyTextEdits "a[16px]b[8px]c".data
        [⟨8, 13, "Y".data, "[8px]".data⟩, ⟨1, 7, "X".data, "[16px]".data⟩] :=
  (applyTextEdits_order_independent "a[16px]b[8px]c".data
    [⟨1, 7, "X".data, "[16px]".data⟩, ⟨8, 13, "Y".data, "[8px]".data⟩]
    [⟨8, 13, "Y".data, "[8px]".data⟩, ⟨1, 7, "X".data, "[16px]".data⟩]
    (by decide) (by decide) (List.Perm.swap _ _ _)).1

/-- C4: an empty edit list leaves the text untouched: applyTextEdits of
the empty list is the identity, zero diagnostics build zero edits, and
canonicalizeDocument returns the input text when no edits are built. -/
theorem canonicalizeDocument_noop (validate : List Char → List Diagnostic)
    (fp : String) (t : List Char)
    (h : buildCanonicalEdits (validate t) t = []) :
    applyTextEdits t [] = t ∧ buildCanonicalEdits [] t = [] ∧
      canonicalizeDocument validate fp t = t := by
  refine ⟨rfl, rfl, ?_⟩
  unfold canonicalizeDocument
  cases hlang : inferLanguageId fp with
  | none => rfl
  | some lid => simp [h]

/-- C4 witness: an analyzer returning zero diagnostics on a css file. -/
theorem canonicalizeDocument_noop_witness :
    applyTextEdits "x y".data [] = "x y".data ∧
      buildCanonicalEdits [] "x y".data = [] ∧
      canonicalizeDocument (fun _ => []) "a.css" "x y".data = "x y".data :=
  canonicalizeDocument_noop (fun _ => []) "a.css" "x y".data rfl

/-- C5: dedupeEdits keeps the first occurrence of every
(startOffset, endOffset) pair and drops all later edits with exactly that
pair; two identical ranges with different suggestions collapse to the
first-seen edit. -/
theorem dedupeEdits_first_wins (e : TextEdit) (es : List TextEdit) :
    dedupeEdits (e :: es)
      = e :: dedupeEdits (es.filter
          (fun e' => !(e'.startOffset == e.startOffset
            && e'.endOffset == e.endOffset))) ∧
    dedupeEdits
        [⟨0, 5, "mt-4".data, "mt-[16px]".data⟩,
         ⟨0, 5, "mt-5".data, "mt-[16px]".data⟩]
      = [⟨0, 5, "mt-4".data, "mt-[16px]".data⟩] := by
  refine ⟨?_, by decide⟩
  rw [dedupeEdits_cons]
  congr 1
  congr 1
  apply List.filter_congr
  intro e' _
  refine congrArg Bool.not ?_
  rw [Bool.eq_iff_iff]
  simp only [beq_iff_eq, Bool.and_eq_true]
  exact editKey_eq_iff e' e

/-- C6: every edit built from the diagnostics satisfies
startOffset < endOffset; the builder is exactly per-diagnostic translation
(skip on a falsy primary suggestion -- absent or empty -- and on
degenerate ranges) followed by dedup, and every emitted edit carries the
primary suggestion and the exact original substring of its diagnostic. -/
theorem buildCanonicalEdits_invariant (diags : List Diagnostic) (t : List Char) :
    (∀ e ∈ buildCanonicalEdits diags t, e.startOffset < e.endOffset) ∧
    buildCanonicalEdits diags t
      = dedupeEdits (diags.filterMap (translateDiag t)) ∧
    (∀ e ∈ buildCanonicalEdits diags t,
      ∃ d ∈ diags, d.suggestCanonical = true ∧
        d.suggestions.head? = some e.replacement ∧
        e.startOffset = d.rangeStart ∧ e.endOffset = d.rangeEnd ∧
        e.original = getText t d.rangeStart d.rangeEnd) := by
  refine ⟨?_, ?_, ?_⟩
  · intro e he
    exact collectEdits_start_lt_end t diags e (dedupeLoop_mem _ he)
  · rw [buildCanonicalEdits, collectEdits_eq_filterMap]
  · intro e he
    exact collectEdits_provenance t diags e (dedupeLoop_mem _ he)

/-- C6 witness: one concrete diagnostic on the text abcdef. -/
theorem buildCanonicalEdits_invariant_witness :
    (2 : Nat) < 4 ∧
    buildCanonicalEdits [⟨2, 4, ["XY".data], true⟩] "abcdef".data
      = dedupeEdits ([(⟨2, 4, ["XY".data], true⟩ : Diagnostic)].filterMap
          (translateDiag "abcdef".data)) ∧
    (∃ d ∈ [(⟨2, 4, ["XY".data], true⟩ : Diagnostic)],
      d.suggestCanonical = true ∧
      d.suggestions.head?
        = some (⟨2, 4, "XY".data, "cd".data⟩ : TextEdit).replacement ∧
      (⟨2, 4, "XY".data, "cd".data⟩ : TextEdit).startOffset = d.rangeStart ∧
      (⟨2, 4, "XY".data, "cd".data⟩ : TextEdit).endOffset = d.rangeEnd ∧
      (⟨2, 4, "XY".data, "cd".data⟩ : TextEdit).original
        = getText "abcdef".data d.rangeStart d.rangeEnd) :=
  have h := buildCanonicalEdits_invariant [⟨2, 4, ["XY".data], true⟩]
    "abcdef".data
  ⟨h.1 ⟨2, 4, "XY".data, "cd".data⟩ (by decide), h.2.1,
    h.2.2 ⟨2, 4, "XY".data, "cd".data⟩ (by decide)⟩

/-- C7: two getDesignSystem calls with the same key, the second issued
against the state the first produced (before or after the load settles:
the cache stores the promise itself), return the same in-flight load and
the pair of calls triggers exactly one underlying load. -/
theorem getDesignSystem_coalesces (s : CacheState) (rootDir : String)
    (cssPath : Option String)
    (h : cacheLookup s.cache (cacheKeyOf rootDir cssPath) = none) :
    (getDesignSystem ((getDesignSystem s rootDir cssPath).1) rootDir cssPath).2
        = (getDesignSystem s rootDir cssPath).2 ∧
    (getDesignSystem ((getDesignSystem s rootDir cssPath).1) rootDir cssPath).1
        = (getDesignSystem s rootDir cssPath).1 ∧
    (getDesignSystem s rootDir cssPath).1.nextLoadId = s.nextLoadId + 1 := by
  simp only [getDesignSystem, h]
  simp [cacheLookup]

/-- C7 witness: a fresh cache with a concrete root and stylesheet path. -/
theorem getDesignSystem_coalesces_witness :
    (getDesignSystem ((getDesignSystem ⟨[], 0⟩ "/proj" (some "./app.css")).1)
        "/proj" (some "./app.css")).2
      = (getDesignSystem (⟨[], 0⟩ : CacheState) "/proj" (some "./app.css")).2 :=
  (getDesignSystem_coalesces ⟨[], 0⟩ "/proj" (some "./app.css") rfl).1

theorem filterTargetLoop_mem :
    ∀ (files seen : List String) (f : String),
      f ∈ filterTargetLoop seen files →
        isSupportedExtension f = true ∧ f ∈ files := by
  intro files
  induction files with
  | nil => intro seen f h; simp [filterTargetLoop] at h
  | cons g rest ih =>
    intro seen f h
    rw [filterTargetLoop] at h
    by_cases hs : isSupportedExtension g
    · rw [if_neg (by simp [hs])] at h
      by_cases hc : seen.contains g
      · rw [if_pos hc] at h
        obtain ⟨h1, h2⟩ := ih seen f h
        exact ⟨h1, List.mem_cons_of_mem _ h2⟩
      · rw [if_neg hc] at h
        rcases List.mem_cons.1 h with h | h
        · subst h
          exact ⟨hs, List.mem_cons_self _ _⟩
        · obtain ⟨h1, h2⟩ := ih _ f h
          exact ⟨h1, List.mem_cons_of_mem _ h2⟩
    · rw [if_pos (by simp [hs])] at h
      obtain ⟨h1, h2⟩ := ih seen f h
      exact ⟨h1, List.mem_cons_of_mem _ h2⟩

/-- C8 counterexample: a png file passed as the explicit (and only) target
is dropped by target resolution, so the run has no per-file result at all
for it: nothing is reported as skipped (the skipped count stays zero, even
under a processor that would report every file as skipped) and the run
exits with failure because no matching files remain. -/
theorem pngTarget_never_reported_skipped :
    batchResults ["/a/x.png"] (fun p => ⟨p, FileStatus.skipped, 0⟩) = [] ∧
    (summarizeResults (batchResults ["/a/x.png"]
        (fun p => ⟨p, FileStatus.skipped, 0⟩))).skipped = 0 ∧
    mainExitCode false ["/a/x.png"] ["/a/x.png"] true
        (fun p => ⟨p, FileStatus.skipped, 0⟩) = EXIT_FAILURE := by
  decide

/-- C8 amended: a file with an unsupported extension passed as an explicit
target is removed during target resolution, so it yields no per-file
result whatsoever: it is reported neither as skipped nor as error and no
summary count includes it; when nothing else matches, the run exits with
failure. -/
theorem unsupportedTarget_filtered (globFiles : List String) (p : String)
    (hp : isSupportedExtension p = false)
    (process : String → FileResult)
    (hproc : ∀ q, (process q).filePath = q) :
    p ∉ resolveTargetFiles globFiles ∧
    (∀ q ∈ resolveTargetFiles globFiles,
      isSupportedExtension q = true ∧ q ∈ globFiles) ∧
    (∀ r ∈ batchResults globFiles process, r.filePath ≠ p) := by
  refine ⟨?_, ?_, ?_⟩
  · intro hmem
    have := (filterTargetLoop_mem globFiles [] p hmem).1
    rw [hp] at this
    cases this
  · intro q hq
    exact filterTargetLoop_mem globFiles [] q hq
  · intro r hr
    obtain ⟨q, hq, rfl⟩ := List.mem_map.1 hr
    rw [hproc q]
    intro hqp
    subst hqp
    have := (filterTargetLoop_mem globFiles [] q hq).1
    rw [hp] at this
    cases this

/-- C8 amended witness: the png target among a css target. -/
theorem unsupportedTarget_filtered_witness :
    "/a/x.png" ∉ resolveTargetFiles ["/a/x.png", "/a/b.css"] :=
  (unsupportedTarget_filtered ["/a/x.png", "/a/b.css"] "/a/x.png" (by decide)
    (fun q => ⟨q, FileStatus.unchanged, 0⟩) (fun _ => rfl)).1

/-- C9: a run that reaches the batch loop exits successfully exactly when
the summary counts zero errors, and the exit status depends on the
per-file results only through the error count: in particular the skipped
count never affects it. -/
theorem exitCode_iff_errors (helpFlag : Bool)
    (rawTargets globFiles : List String)
    (process process' : String → FileResult)
    (h1 : helpFlag = false) (h2 : rawTargets ≠ [])
    (h3 : resolveTargetFiles globFiles ≠ []) :
    (mainExitCode helpFlag rawTargets globFiles true process = EXIT_SUCCESS ↔
      (summarizeResults (batchResults globFiles process)).errors = 0) ∧
    ((summarizeResults (batchResults globFiles process')).errors
        = (summarizeResults (batchResults globFiles process)).errors →
      mainExitCode helpFlag rawTargets globFiles true process'
        = mainExitCode helpFlag rawTargets globFiles true process) := by
  subst h1
  have h2' : ¬(rawTargets.length = 0) := by
    simpa [List.length_eq_zero] using h2
  have h3' : ¬((resolveTargetFiles globFiles).length = 0) := by
    simpa [List.length_eq_zero] using h3
  unfold mainExitCode
  simp only [Bool.false_or, h2', h3', decide_eq_true_eq, Bool.not_true,
    decide_False, Bool.false_eq_true, not_false_iff, reduceIte, if_neg]
  constructor
  · by_cases herr : (summarizeResults (batchResults globFiles process)).errors > 0
    · simp [herr, EXIT_SUCCESS, EXIT_FAILURE]
      omega
    · simp [herr, EXIT_SUCCESS]
      omega
  · intro heq
    rw [heq]

/-- C9 witness at a one-file batch. -/
theorem exitCode_iff_errors_witness :
    mainExitCode false ["a.css"] ["/r/a.css"]
        true (fun p => ⟨p, FileStatus.unchanged, 0⟩) = EXIT_SUCCESS ↔
      (summarizeResults (batchResults ["/r/a.css"]
        (fun p => ⟨p, FileStatus.unchanged, 0⟩))).errors = 0 :=
  (exitCode_iff_errors false ["a.css"] ["/r/a.css"]
    (fun p => ⟨p, FileStatus.unchanged, 0⟩)
    (fun p => ⟨p, FileStatus.unchanged, 0⟩)
    rfl (by decide) (by decide)).1

/-- C10: the file-discovery filter and the format dispatcher agree on
every path: isSupportedExtension holds exactly when inferLanguageId
returns a language id, both reading the same lowercased extension. -/
theorem isSupportedExtension_iff_inferLanguageId (p : String) :
    isSupportedExtension p = true ↔ (inferLanguageId p).isSome = true := by
  unfold isSupportedExtension inferLanguageId
  generalize lowerAscii (extname p) = e
  constructor
  · intro h
    simp only [SUPPORTED_EXTENSIONS, List.contains_cons, List.contains_nil,
      Bool.or_eq_true, beq_iff_eq, Bool.false_eq_true, or_false] at h
    rcases h with rfl | rfl | rfl | rfl | rfl | rfl | rfl | rfl | rfl | rfl
      | rfl | rfl | rfl | rfl | rfl | rfl | rfl | rfl | rfl | rfl | rfl | rfl <;>
      rfl
  · intro h
    split at h <;> simp_all [SUPPORTED_EXTENSIONS]

end TwCanon
